import Mathlib

/-!
# Verification of the 20_newsgroup text-classification pipeline

Shallow embedding of the data-preparation pipeline of
`using-pre-trained-word-embeddings-in-a-keras-model.ipynb`:

* the corpus loader (directory walk, header strip),
* the sequence encoder (vocabulary lookup, pad/truncate),
* the GloVe embedding-index parser,
* the embedding-matrix builder.

Texts and words are modelled as `List Char`; the float32 coefficients of the
embedding vectors are modelled as `Int` (the matrix construction only copies
them or zero-fills, it never computes with them, so the carrier type is
irrelevant to every property proved here).  Python dictionaries are modelled
as association lists in insertion order with unique keys; `dict.get` /
`dict.__getitem__` is first-match lookup.  Fallible operations (NumPy row
assignment, float parsing) return `Option` / `Except`.
-/

/-- `matchesHere pat s` : does `pat` occur as a prefix of `s`?
(Substring matching step of Python `str.find`.) -/
def matchesHere : List Char → List Char → Bool
  | [], _ => true
  | _ :: _, [] => false
  | p :: ps, c :: cs => p == c && matchesHere ps cs

/-- First index at which `pat` occurs in `s`, if any
(the scanning loop of Python `str.find`). -/
def findSub (pat : List Char) : List Char → Option Nat
  | [] => if matchesHere pat [] then some 0 else none
  | c :: rest =>
    if matchesHere pat (c :: rest) then some 0
    else (findSub pat rest).map (· + 1)

/-- Python `t.find(pat)`: first index of occurrence, `-1` when absent. -/
def pyFind (t pat : List Char) : Int :=
  match findSub pat t with
  | some i => (i : Int)
  | none => -1

/-- The header strip of the corpus loader (notebook cell 5):
`i = t.find('\n\n'); if 0 < i: t = t[i:]`. -/
def stripHeader (t : List Char) : List Char :=
  let i := pyFind t ['\n', '\n']
  if 0 < i then t.drop i.toNat else t

/-- `findSub` really returns the first occurrence: the pattern matches at the
returned index and at no earlier index. -/
theorem findSub_first (pat : List Char) :
    ∀ (t : List Char) (i : Nat), findSub pat t = some i →
      matchesHere pat (t.drop i) = true ∧
      ∀ j, j < i → matchesHere pat (t.drop j) = false := by
  intro t
  induction t with
  | nil =>
    intro i h
    simp only [findSub] at h
    split at h
    · cases h
      exact ⟨by assumption, fun j hj => absurd hj (Nat.not_lt_zero j)⟩
    · cases h
  | cons c rest ih =>
    intro i h
    simp only [findSub] at h
    split at h
    · cases h
      exact ⟨by assumption, fun j hj => absurd hj (Nat.not_lt_zero j)⟩
    · rcases Option.map_eq_some'.mp h with ⟨i0, h0, hi⟩
      subst hi
      obtain ⟨hmatch, hfirst⟩ := ih i0 h0
      refine ⟨by simpa using hmatch, ?_⟩
      intro j hj
      cases j with
      | zero =>
        simp only [List.drop_zero]
        exact Bool.not_eq_true _ ▸ (by simpa using (by assumption : ¬ matchesHere pat (c :: rest) = true))
      | succ j0 =>
        simpa using hfirst j0 (Nat.lt_of_succ_lt_succ hj)

/-- If `findSub` finds nothing, `pyFind` is `-1`; otherwise it is the index. -/
theorem pyFind_eq (t pat : List Char) :
    (findSub pat t = none → pyFind t pat = -1) ∧
    (∀ i, findSub pat t = some i → pyFind t pat = (i : Int)) := by
  constructor
  · intro h; simp [pyFind, h]
  · intro i h; simp [pyFind, h]

/-- C5: the corpus loader locates the first occurrence of a double newline;
if it occurs at a positive offset it keeps exactly the suffix starting at
that offset (so the `"\n\n"` itself is kept); if there is no occurrence the
text is unchanged. -/
theorem c5_header_strip (t : List Char) :
    (findSub ['\n', '\n'] t = none → stripHeader t = t) ∧
    (∀ i : Nat, findSub ['\n', '\n'] t = some i →
      (matchesHere ['\n', '\n'] (t.drop i) = true ∧
        ∀ j, j < i → matchesHere ['\n', '\n'] (t.drop j) = false) ∧
      (0 < i → stripHeader t = t.drop i) ∧
      (i = 0 → stripHeader t = t)) := by
  refine ⟨?_, ?_⟩
  · intro h
    simp [stripHeader, pyFind, h]
  · intro i h
    refine ⟨findSub_first _ t i h, ?_, ?_⟩
    · intro hi
      simp only [stripHeader, pyFind, h]
      rw [if_pos (by exact_mod_cast hi)]
      simp
    · intro hi
      subst hi
      simp [stripHeader, pyFind, h]

/-- The header-strip example from the spec. -/
def headerExample : List Char := "Header line\n\nBody text".toList

theorem c5_header_strip_witness :
    findSub ['\n', '\n'] headerExample = some 11 ∧
    (0 : Nat) < 11 ∧
    stripHeader headerExample = headerExample.drop 11 ∧
    headerExample.drop 11 = "\n\nBody text".toList :=
  ⟨by decide, by decide,
    (((c5_header_strip headerExample).2 11 (by decide)).2).1 (by decide),
    by decide⟩

/-- Python dict lookup (`d.get(k)` / `d[k]`): first-match lookup on an
association list held in insertion order. -/
def dictGet {α : Type} : List (List Char × α) → List Char → Option α
  | [], _ => none
  | p :: rest, k => if p.1 = k then some p.2 else dictGet rest k

/-- Modelled from the spec: `Tokenizer.texts_to_sequences` of the external
tokenizer (its implementation is not part of this repository).  Each token is
mapped to its vocabulary index; tokens absent from the vocabulary or with
index `≥ N` (the `num_words` budget) are dropped.  Tokenization itself is the
spec's open question, so the input is already a token list. -/
def textToSequence (wordIndex : List (List Char × Nat)) (N : Nat)
    (tokens : List (List Char)) : List Nat :=
  tokens.filterMap fun w =>
    match dictGet wordIndex w with
    | some i => if i < N then some i else none
    | none => none

/-- Modelled from the spec: `pad_sequences(sequences, maxlen=L)` of the
external framework, called in notebook cell 7 with its default
`padding='pre'` and `truncating='pre'`: left-pad with `0` up to length `L`,
or keep only the last `L` entries. -/
def padSequence (L : Nat) (s : List Nat) : List Nat :=
  if s.length < L then List.replicate (L - s.length) 0 ++ s
  else s.drop (s.length - L)

/-- One text through the whole sequence encoder. -/
def encodeText (wordIndex : List (List Char × Nat)) (N L : Nat)
    (tokens : List (List Char)) : List Nat :=
  padSequence L (textToSequence wordIndex N tokens)

theorem padSequence_length (L : Nat) (s : List Nat) :
    (padSequence L s).length = L := by
  unfold padSequence
  split
  · simp only [List.length_append, List.length_replicate]
    omega
  · simp only [List.length_drop]
    omega

theorem padSequence_mem (L : Nat) (s : List Nat) :
    ∀ x ∈ padSequence L s, x = 0 ∨ x ∈ s := by
  intro x hx
  unfold padSequence at hx
  split at hx
  · rcases List.mem_append.mp hx with h | h
    · exact Or.inl (List.eq_of_mem_replicate h)
    · exact Or.inr h
  · exact Or.inr (List.mem_of_mem_drop hx)

theorem textToSequence_lt (wordIndex : List (List Char × Nat)) (N : Nat)
    (tokens : List (List Char)) :
    ∀ x ∈ textToSequence wordIndex N tokens, x < N := by
  intro x hx
  unfold textToSequence at hx
  rcases List.mem_filterMap.mp hx with ⟨w, _, hw⟩
  split at hw
  · split at hw
    · injection hw with h2
      omega
    · cases hw
  · cases hw

/-- C3: encoding any token list yields a sequence of exactly `L` integers,
each in `[0, N)` (for any positive budget `N`; the notebook uses `L = 1000`,
`N = 20000`). -/
theorem c3_encode_length_range (wordIndex : List (List Char × Nat))
    (N L : Nat) (tokens : List (List Char)) :
    (encodeText wordIndex N L tokens).length = L ∧
    (0 < N → ∀ x ∈ encodeText wordIndex N L tokens, x < N) := by
  refine ⟨padSequence_length L _, fun hN x hx => ?_⟩
  rcases padSequence_mem L _ x hx with h | h
  · omega
  · exact textToSequence_lt wordIndex N tokens x h

set_option maxRecDepth 100000 in
theorem c3_encode_length_range_witness :
    (0 : Nat) < 20000 ∧
    (encodeText [("cat".toList, 7)] 20000 1000 ["cat".toList]).length = 1000 ∧
    (7 : Nat) ∈ encodeText [("cat".toList, 7)] 20000 1000 ["cat".toList] ∧
    (7 : Nat) < 20000 :=
  ⟨by decide,
    (c3_encode_length_range [("cat".toList, 7)] 20000 1000 ["cat".toList]).1,
    by decide,
    (c3_encode_length_range [("cat".toList, 7)] 20000 1000 ["cat".toList]).2
      (by decide) 7 (by decide)⟩

/-- C4: the encoder left-pads short sequences with `0` and truncates long
ones from the front, keeping exactly the last `L` entries. -/
theorem c4_pad_truncate (L : Nat) (s : List Nat) :
    (s.length < L →
      padSequence L s = List.replicate (L - s.length) 0 ++ s ∧
      (∀ j, j < L - s.length → (padSequence L s)[j]? = some 0) ∧
      (∀ j, (padSequence L s)[(L - s.length) + j]? = s[j]?)) ∧
    (L ≤ s.length →
      padSequence L s = s.drop (s.length - L) ∧
      (padSequence L s).length = L ∧
      (∀ j, (padSequence L s)[j]? = s[(s.length - L) + j]?)) := by
  constructor
  · intro h
    have hdef : padSequence L s = List.replicate (L - s.length) 0 ++ s := by
      unfold padSequence
      rw [if_pos h]
    refine ⟨hdef, ?_, ?_⟩
    · intro j hj
      rw [hdef]
      simp [List.getElem?_append, hj]
    · intro j
      rw [hdef, List.getElem?_append_right (by simp)]
      simp
  · intro h
    have hdef : padSequence L s = s.drop (s.length - L) := by
      unfold padSequence
      rw [if_neg (by omega)]
    refine ⟨hdef, padSequence_length L s, ?_⟩
    intro j
    rw [hdef, List.getElem?_drop]

theorem c4_pad_truncate_witness :
    (1000 : Nat) ≤ (List.range 1500).length ∧
    padSequence 1000 (List.range 1500) =
      (List.range 1500).drop ((List.range 1500).length - 1000) ∧
    (List.range 1500).drop ((List.range 1500).length - 1000) =
      List.range' 500 1000 ∧
    (padSequence 1000 (List.range 1500))[0]? = some 500 :=
  ⟨by simp,
    ((c4_pad_truncate 1000 (List.range 1500)).2 (by simp)).1,
    by
      rw [List.range_eq_range', show (List.range' 0 1500).length - 1000 = 500 by simp]
      have h := List.range'_append_1 0 500 1000
      norm_num at h
      rw [← h]
      have hd := List.drop_left (List.range' 0 500) (List.range' 500 1000)
      simp only [List.length_range'] at hd
      exact hd,
    by
      have h := ((c4_pad_truncate 1000 (List.range 1500)).2 (by simp)).2.2 0
      simpa using h⟩

/-- Whitespace recognized by Python `str.split()` (the characters that can
occur in a text line of the embedding file). -/
def isSpaceChar (c : Char) : Bool :=
  c == ' ' || c == '\t' || c == '\n' || c == '\r'

/-- Helper for `pySplit`: scan with the current (reversed) field. -/
def pySplitAux : List Char → List Char → List (List Char)
  | acc, [] => if acc.isEmpty then [] else [acc.reverse]
  | acc, c :: cs =>
    if isSpaceChar c then
      if acc.isEmpty then pySplitAux [] cs
      else acc.reverse :: pySplitAux [] cs
    else pySplitAux (c :: acc) cs

/-- Python `line.split()`: split on runs of whitespace, producing no empty
fields. -/
def pySplit (s : List Char) : List (List Char) := pySplitAux [] s

/-- Digit-string parse: a nonempty all-digit token. -/
def parseDigits (s : List Char) : Option Nat :=
  if s.isEmpty then none
  else if s.all Char.isDigit then
    some (s.foldl (fun a c => a * 10 + (c.toNat - 48)) 0)
  else none

/-- Numeric-token parse standing in for the NumPy float32 conversion
(`np.asarray(values[1:], dtype='float32')`): an optional sign followed by a
nonempty digit string succeeds, anything else is a conversion error.  Every
property proved below depends only on success versus failure of the
conversion and on how many coefficients are stored, never on the numeric
values, so the integer stand-in is faithful for them. -/
def parseNum (s : List Char) : Option Int :=
  match s with
  | '-' :: rest => (parseDigits rest).map (fun n => -(n : Int))
  | _ => (parseDigits s).map (fun n => (n : Int))

/-- Element-wise numeric conversion of the coefficient tokens
(`np.asarray(values[1:], dtype='float32')`): all tokens must convert,
a single bad token fails the whole conversion. -/
def parseCoefs : List (List Char) → Option (List Int)
  | [] => some []
  | t :: ts =>
    match parseNum t with
    | some x => (parseCoefs ts).map (fun xs => x :: xs)
    | none => none

/-- One line of the embedding file (notebook cell 9):
`values = line.split(); word = values[0];
coefs = np.asarray(values[1:], dtype='float32')`.
An empty split makes `values[0]` fail (IndexError) and a non-numeric token
makes the conversion fail (ValueError); both surface the offending line.
No check relates the number of coefficients to any common dimension. -/
def parseLine (line : List Char) : Except (List Char) (List Char × List Int) :=
  match pySplit line with
  | [] => Except.error line
  | w :: rest =>
    match parseCoefs rest with
    | some coefs => Except.ok (w, coefs)
    | none => Except.error line

/-- Python dict assignment `d[k] = v`: replace an existing binding in place,
else append (insertion order preserved). -/
def dictInsert {α : Type} (d : List (List Char × α)) (k : List Char) (v : α) :
    List (List Char × α) :=
  if (dictGet d k).isSome then
    d.map fun p => if p.1 = k then (k, v) else p
  else d ++ [(k, v)]

/-- The `embeddings_index` loop of notebook cell 9 over the lines of the
GloVe file, carrying the dictionary built so far: each line is parsed and
stored; the first failing line aborts the whole run. -/
def buildEmbeddingsIndexGo (d : List (List Char × List Int)) :
    List (List Char) → Except (List Char) (List (List Char × List Int))
  | [] => Except.ok d
  | line :: rest =>
    match parseLine line with
    | Except.error e => Except.error e
    | Except.ok p => buildEmbeddingsIndexGo (dictInsert d p.1 p.2) rest

/-- The whole `embeddings_index` construction, starting from the empty dict. -/
def buildEmbeddingsIndex (lines : List (List Char)) :
    Except (List Char) (List (List Char × List Int)) :=
  buildEmbeddingsIndexGo [] lines

theorem parseLine_error_eq {line e : List Char}
    (h : parseLine line = Except.error e) : e = line := by
  unfold parseLine at h
  split at h
  · cases h; rfl
  · split at h
    · cases h
    · cases h; rfl

theorem dictGet_map_replace {α : Type} (d : List (List Char × α))
    (k k2 : List Char) (v : α) (hne : k2 ≠ k) :
    dictGet (d.map fun p => if p.1 = k then (k, v) else p) k2 = dictGet d k2 := by
  induction d with
  | nil => rfl
  | cons p rest ih =>
    by_cases hp : p.1 = k
    · have h1 : ¬ (k = k2) := fun hc => hne hc.symm
      have h2 : ¬ (p.1 = k2) := by rw [hp]; exact h1
      simp [dictGet, hp, h1, h2, ih]
    · simp [dictGet, hp, ih]

theorem dictGet_map_replace_self {α : Type} (d : List (List Char × α))
    (k : List Char) (v : α) (h : (dictGet d k).isSome) :
    dictGet (d.map fun p => if p.1 = k then (k, v) else p) k = some v := by
  induction d with
  | nil => simp [dictGet] at h
  | cons p rest ih =>
    by_cases hp : p.1 = k
    · simp [dictGet, hp]
    · simp only [dictGet, if_neg hp] at h
      simp [dictGet, hp, ih h]

theorem dictGet_append_single {α : Type} (d : List (List Char × α))
    (k k2 : List Char) (v : α) :
    dictGet (d ++ [(k, v)]) k2 =
      match dictGet d k2 with
      | some x => some x
      | none => if k = k2 then some v else none := by
  induction d with
  | nil => simp [dictGet]
  | cons p rest ih =>
    by_cases hp : p.1 = k2 <;> simp [dictGet, hp, ih]

theorem dictGet_insert_self {α : Type} (d : List (List Char × α))
    (k : List Char) (v : α) : (dictGet (dictInsert d k v) k).isSome := by
  unfold dictInsert
  split
  · rw [dictGet_map_replace_self d k v (by assumption)]
    simp
  · rw [dictGet_append_single]
    rcases hx : dictGet d k with _ | x <;> simp

theorem dictGet_insert_mono {α : Type} (d : List (List Char × α))
    (k k2 : List Char) (v : α) (h : (dictGet d k2).isSome) :
    (dictGet (dictInsert d k v) k2).isSome := by
  unfold dictInsert
  split
  · by_cases hk : k2 = k
    · subst hk
      rw [dictGet_map_replace_self d k2 v (by assumption)]
      simp
    · rw [dictGet_map_replace d k k2 v hk]
      exact h
  · rw [dictGet_append_single]
    rcases hx : dictGet d k2 with _ | x
    · rw [hx] at h; simp at h
    · simp

theorem buildGo_error (lines : List (List Char)) :
    ∀ d : List (List Char × List Int),
      (∃ l ∈ lines, ∃ e, parseLine l = Except.error e) →
      ∃ e, buildEmbeddingsIndexGo d lines = Except.error e ∧ e ∈ lines ∧
        parseLine e = Except.error e := by
  induction lines with
  | nil => rintro d ⟨l, hl, _⟩; cases hl
  | cons l0 rest ih =>
    rintro d ⟨l, hl, e, he⟩
    rcases h0 : parseLine l0 with e0 | p
    · have he0 : e0 = l0 := parseLine_error_eq h0
      refine ⟨l0, ?_, List.mem_cons_self l0 rest, he0 ▸ h0⟩
      simp [buildEmbeddingsIndexGo, h0, he0]
    · have hlr : l ∈ rest := by
        rcases List.mem_cons.mp hl with h | h
        · subst h; rw [h0] at he; cases he
        · exact h
      obtain ⟨e2, hfold, hmem, herr⟩ := ih (dictInsert d p.1 p.2) ⟨l, hlr, e, he⟩
      refine ⟨e2, ?_, List.mem_cons_of_mem l0 hmem, herr⟩
      simp [buildEmbeddingsIndexGo, h0, hfold]

theorem buildGo_ok (lines : List (List Char)) :
    ∀ d d2 : List (List Char × List Int),
      buildEmbeddingsIndexGo d lines = Except.ok d2 →
      (∀ k, (dictGet d k).isSome → (dictGet d2 k).isSome) ∧
      (∀ l ∈ lines, ∃ w coefs, parseLine l = Except.ok (w, coefs) ∧
        (dictGet d2 w).isSome) := by
  induction lines with
  | nil =>
    intro d d2 h
    simp only [buildEmbeddingsIndexGo] at h
    cases h
    exact ⟨fun k hk => hk, by rintro l ⟨⟩⟩
  | cons l0 rest ih =>
    intro d d2 h
    rcases h0 : parseLine l0 with e0 | p
    · simp [buildEmbeddingsIndexGo, h0] at h
    · simp only [buildEmbeddingsIndexGo, h0] at h
      obtain ⟨hmono, hall⟩ := ih (dictInsert d p.1 p.2) d2 h
      refine ⟨fun k hk => hmono k (dictGet_insert_mono d p.1 k p.2 hk), ?_⟩
      intro l hl
      rcases List.mem_cons.mp hl with hcase | hcase
      · subst hcase
        exact ⟨p.1, p.2, h0, hmono p.1 (dictGet_insert_self d p.1 p.2)⟩
      · exact hall l hcase

/-- C6 (amended): a line with a non-numeric coefficient makes the whole run
fail with an error carrying the offending line, and no failing line is ever
silently skipped (on success every line was parsed and its word is a key of
the index); but the parser performs no dimension check, so lines with
different coefficient counts are stored as-is. -/
theorem c6_parser_amended (lines : List (List Char)) :
    (∀ line w rest, pySplit line = w :: rest → parseCoefs rest = none →
      parseLine line = Except.error line) ∧
    (∀ l ∈ lines, parseLine l = Except.error l →
      ∃ e, buildEmbeddingsIndex lines = Except.error e ∧ e ∈ lines ∧
        parseLine e = Except.error e) ∧
    (∀ d, buildEmbeddingsIndex lines = Except.ok d →
      ∀ l ∈ lines, ∃ w coefs, parseLine l = Except.ok (w, coefs) ∧
        (dictGet d w).isSome) := by
  refine ⟨?_, ?_, ?_⟩
  · intro line w rest hsplit hnum
    unfold parseLine
    rw [hsplit]
    show (match parseCoefs rest with
      | some coefs => Except.ok (w, coefs)
      | none => Except.error line) = Except.error line
    rw [hnum]
  · intro l hl herr
    exact buildGo_error lines [] ⟨l, hl, l, herr⟩
  · intro d hok
    exact (buildGo_ok lines [] d hok).2

theorem c6_parser_amended_witness :
    pySplit "word 1 x".toList = ["word".toList, "1".toList, "x".toList] ∧
    parseCoefs ["1".toList, "x".toList] = none ∧
    parseLine "word 1 x".toList = Except.error "word 1 x".toList ∧
    buildEmbeddingsIndex ["word 1 x".toList] =
      Except.error "word 1 x".toList := by
  refine ⟨by decide, by decide,
    (c6_parser_amended ["word 1 x".toList]).1 "word 1 x".toList
      "word".toList ["1".toList, "x".toList] (by decide) (by decide), ?_⟩
  obtain ⟨e, h1, h2, h3⟩ :=
    (c6_parser_amended ["word 1 x".toList]).2.1 "word 1 x".toList
      (List.mem_singleton.mpr rfl) (by rfl)
  have he : e = "word 1 x".toList := List.mem_singleton.mp h2
  rw [he] at h1
  exact h1

/-- C6, counterexample to the claim as stated: two well-formed numeric lines
with different coefficient counts (2 and 1) are both accepted — the parser
returns the index instead of failing, storing vectors of unequal dimension. -/
theorem c6_parser_counterexample :
    buildEmbeddingsIndex ["a 1 2".toList, "b 3".toList] =
      Except.ok [("a".toList, ([1, 2] : List Int)), ("b".toList, ([3] : List Int))] := by
  rfl

/-- `num_words = min(MAX_NUM_WORDS, len(word_index) + 1)` (notebook cell 11). -/
def numWords (maxNumWords : Nat) (wordIndex : List (List Char × Nat)) : Nat :=
  min maxNumWords (wordIndex.length + 1)

/-- One iteration of the fill loop of notebook cell 11:
`if i >= MAX_NUM_WORDS: continue;
embedding_vector = embeddings_index.get(word);
if embedding_vector is not None: embedding_matrix[i] = embedding_vector`.
The NumPy row assignment raises when `i` is out of bounds (IndexError) or
when the vector does not match the row width (broadcast error); both are
modelled as `none`. -/
def embeddingStep (maxNumWords embeddingDim : Nat)
    (embeddingsIndex : List (List Char × List Int))
    (m : List (List Int)) (p : List Char × Nat) : Option (List (List Int)) :=
  if maxNumWords ≤ p.2 then some m
  else
    match dictGet embeddingsIndex p.1 with
    | none => some m
    | some v =>
      if p.2 < m.length ∧ v.length = embeddingDim then some (m.set p.2 v)
      else none

/-- The fill loop over `word_index.items()` (insertion order of the dict). -/
def embeddingFill (maxNumWords embeddingDim : Nat)
    (embeddingsIndex : List (List Char × List Int))
    (m : List (List Int)) :
    List (List Char × Nat) → Option (List (List Int))
  | [] => some m
  | p :: rest =>
    match embeddingStep maxNumWords embeddingDim embeddingsIndex m p with
    | some m2 => embeddingFill maxNumWords embeddingDim embeddingsIndex m2 rest
    | none => none

/-- The `embedding_matrix` construction of notebook cell 11: a zero matrix
of shape `(num_words, EMBEDDING_DIM)` filled row by row from the embedding
index. -/
def buildEmbeddingMatrix (maxNumWords embeddingDim : Nat)
    (wordIndex : List (List Char × Nat))
    (embeddingsIndex : List (List Char × List Int)) :
    Option (List (List Int)) :=
  embeddingFill maxNumWords embeddingDim embeddingsIndex
    (List.replicate (numWords maxNumWords wordIndex)
      (List.replicate embeddingDim 0))
    wordIndex

theorem dictGet_length {D : Nat} (d : List (List Char × List Int))
    (hdim : ∀ q ∈ d, q.2.length = D) :
    ∀ k v, dictGet d k = some v → v.length = D := by
  induction d with
  | nil => intro k v h; cases h
  | cons p rest ih =>
    intro k v h
    simp only [dictGet] at h
    split at h
    · cases h
      exact hdim p (List.mem_cons_self p rest)
    · exact ih (fun q hq => hdim q (List.mem_cons_of_mem p hq)) k v h

/-- Success, shape preservation and untouched-row preservation of the fill
loop; needs only that every guarded write is in bounds. -/
theorem embeddingFill_ok (N D : Nat) (emb : List (List Char × List Int))
    (hdim : ∀ q ∈ emb, q.2.length = D) :
    ∀ (pairs : List (List Char × Nat)) (m : List (List Int)),
      (∀ p ∈ pairs, p.2 < N → p.2 < m.length) →
      ∃ M, embeddingFill N D emb m pairs = some M ∧
        M.length = m.length ∧
        ((∀ r ∈ m, r.length = D) → ∀ r ∈ M, r.length = D) ∧
        (∀ j : Nat,
          (∀ p ∈ pairs, ¬(p.2 = j ∧ p.2 < N ∧ (dictGet emb p.1).isSome)) →
          M[j]? = m[j]?) := by
  intro pairs
  induction pairs with
  | nil =>
    intro m _
    exact ⟨m, rfl, rfl, fun h => h, fun j _ => rfl⟩
  | cons p rest ih =>
    intro m hb
    by_cases hN : N ≤ p.2
    · obtain ⟨M, hfill, hlen, hdims, hpres⟩ :=
        ih m (fun q hq => hb q (List.mem_cons_of_mem p hq))
      refine ⟨M, ?_, hlen, hdims, ?_⟩
      · simpa [embeddingFill, embeddingStep, hN] using hfill
      · intro j hj
        exact hpres j (fun q hq => hj q (List.mem_cons_of_mem p hq))
    · push_neg at hN
      rcases hget : dictGet emb p.1 with _ | v
      · obtain ⟨M, hfill, hlen, hdims, hpres⟩ :=
          ih m (fun q hq => hb q (List.mem_cons_of_mem p hq))
        refine ⟨M, ?_, hlen, hdims, ?_⟩
        · simpa [embeddingFill, embeddingStep, Nat.not_le.mpr hN, hget] using hfill
        · intro j hj
          exact hpres j (fun q hq => hj q (List.mem_cons_of_mem p hq))
      · have hbound : p.2 < m.length := hb p (List.mem_cons_self p rest) hN
        have hv : v.length = D := dictGet_length emb hdim p.1 v hget
        obtain ⟨M, hfill, hlen, hdims, hpres⟩ :=
          ih (m.set p.2 v) (by
            intro q hq hqN
            rw [List.length_set]
            exact hb q (List.mem_cons_of_mem p hq) hqN)
        refine ⟨M, ?_, by rw [hlen, List.length_set], ?_, ?_⟩
        · simpa [embeddingFill, embeddingStep, Nat.not_le.mpr hN, hget,
            hbound, hv] using hfill
        · intro hm r hr
          refine hdims ?_ r hr
          intro r2 hr2
          rcases List.mem_or_eq_of_mem_set hr2 with h | h
          · exact hm r2 h
          · rw [h]; exact hv
        · intro j hj
          have hne : p.2 ≠ j := by
            intro hc
            exact hj p (List.mem_cons_self p rest) ⟨hc, hN, by rw [hget]; rfl⟩
          rw [hpres j (fun q hq => hj q (List.mem_cons_of_mem p hq))]
          exact List.getElem?_set_ne hne

/-- The value of every written row: with pairwise-distinct indices, each
vocabulary entry whose word is found in the index and whose guarded write
fires ends with its vector in its row. -/
theorem embeddingFill_written (N D : Nat) (emb : List (List Char × List Int))
    (hdim : ∀ q ∈ emb, q.2.length = D) :
    ∀ (pairs : List (List Char × Nat)) (m : List (List Int)),
      (∀ p ∈ pairs, p.2 < N → p.2 < m.length) →
      (pairs.map Prod.snd).Nodup →
      ∀ M, embeddingFill N D emb m pairs = some M →
        ∀ p ∈ pairs, p.2 < N →
          ∀ v, dictGet emb p.1 = some v → M[p.2]? = some v := by
  intro pairs
  induction pairs with
  | nil => rintro m _ _ M _ p ⟨⟩
  | cons q rest ih =>
    intro m hb hnodup M hfill p hp hpN v hget
    rcases List.mem_cons.mp hp with hcase | hcase
    · subst hcase
      have hbound : p.2 < m.length := hb p (List.mem_cons_self p rest) hpN
      have hv : v.length = D := dictGet_length emb hdim p.1 v hget
      have hstep : embeddingStep N D emb m p = some (m.set p.2 v) := by
        simp [embeddingStep, Nat.not_le.mpr hpN, hget, hbound, hv]
      rw [show embeddingFill N D emb m (p :: rest) =
            embeddingFill N D emb (m.set p.2 v) rest by
          simp [embeddingFill, hstep]] at hfill
      have hbrest : ∀ q2 ∈ rest, q2.2 < N → q2.2 < (m.set p.2 v).length := by
        intro q2 hq2 hq2N
        rw [List.length_set]
        exact hb q2 (List.mem_cons_of_mem p hq2) hq2N
      obtain ⟨M2, hfill2, _, _, hpres⟩ :=
        embeddingFill_ok N D emb hdim rest (m.set p.2 v) hbrest
      rw [hfill2] at hfill
      cases hfill
      have hnotouch : ∀ q2 ∈ rest,
          ¬(q2.2 = p.2 ∧ q2.2 < N ∧ (dictGet emb q2.1).isSome) := by
        rintro q2 hq2 ⟨hc, _, _⟩
        have : p.2 ∈ rest.map Prod.snd := hc ▸ List.mem_map_of_mem Prod.snd hq2
        exact (List.nodup_cons.mp (by simpa using hnodup)).1 this
      rw [hpres p.2 hnotouch]
      rw [List.getElem?_set_self hbound]
    · rcases hstep : embeddingStep N D emb m q with _ | m2
      · rw [show embeddingFill N D emb m (q :: rest) = none by
            simp [embeddingFill, hstep]] at hfill
        cases hfill
      · rw [show embeddingFill N D emb m (q :: rest) =
              embeddingFill N D emb m2 rest by
            simp [embeddingFill, hstep]] at hfill
        have hm2 : m2.length = m.length := by
          unfold embeddingStep at hstep
          split at hstep
          · cases hstep; rfl
          · split at hstep
            · cases hstep; rfl
            · split at hstep
              · cases hstep; rw [List.length_set]
              · cases hstep
        refine ih m2 ?_ (by simpa using (List.nodup_cons.mp (by simpa using hnodup)).2)
          M hfill p hcase hpN v hget
        intro q2 hq2 hq2N
        rw [hm2]
        exact hb q2 (List.mem_cons_of_mem q hq2) hq2N

/-- C1: on a well-formed vocabulary (1-based, dense, unique indices) and a
dimension-`D` embedding index the builder succeeds, every vocabulary row
with index below `num_rows` holds the word's vector when the word is in the
embedding index and the all-zero vector when it is absent, and row 0 is
always all-zero. -/
theorem c1_embedding_matrix_rows (N D : Nat)
    (wordIndex : List (List Char × Nat)) (emb : List (List Char × List Int))
    (hperm : (wordIndex.map Prod.snd).Perm (List.range' 1 wordIndex.length))
    (hdim : ∀ q ∈ emb, q.2.length = D) (hN : 0 < N) :
    ∃ M, buildEmbeddingMatrix N D wordIndex emb = some M ∧
      (∀ p ∈ wordIndex, p.2 < numWords N wordIndex →
        (∀ v, dictGet emb p.1 = some v → M[p.2]? = some v) ∧
        (dictGet emb p.1 = none → M[p.2]? = some (List.replicate D 0))) ∧
      M[0]? = some (List.replicate D 0) := by
  have hmem : ∀ p ∈ wordIndex, 1 ≤ p.2 ∧ p.2 < 1 + wordIndex.length := by
    intro p hp
    have h := hperm.mem_iff.mp (List.mem_map_of_mem Prod.snd hp)
    simpa using h
  have hnodup : (wordIndex.map Prod.snd).Nodup :=
    hperm.nodup_iff.mpr (List.nodup_range' 1 wordIndex.length)
  have hb : ∀ p ∈ wordIndex, p.2 < N →
      p.2 < (List.replicate (numWords N wordIndex)
        (List.replicate D (0 : Int))).length := by
    intro p hp hpN
    rw [List.length_replicate]
    have := hmem p hp
    unfold numWords
    omega
  obtain ⟨M, hfill, hlen, _, hpres⟩ :=
    embeddingFill_ok N D emb hdim wordIndex
      (List.replicate (numWords N wordIndex) (List.replicate D 0)) hb
  refine ⟨M, by unfold buildEmbeddingMatrix; exact hfill, ?_, ?_⟩
  · intro p hp hplt
    have hpN : p.2 < N := lt_of_lt_of_le hplt (Nat.min_le_left _ _)
    constructor
    · intro v hget
      exact embeddingFill_written N D emb hdim wordIndex _ hb hnodup M hfill
        p hp hpN v hget
    · intro hget
      have hnot : ∀ q ∈ wordIndex,
          ¬(q.2 = p.2 ∧ q.2 < N ∧ (dictGet emb q.1).isSome) := by
        rintro q hq ⟨hidx, _, hsome⟩
        have hqp : q = p := List.inj_on_of_nodup_map hnodup hq hp hidx
        rw [hqp, hget] at hsome
        cases hsome
      rw [hpres p.2 hnot]
      exact List.getElem?_replicate_of_lt hplt
  · have hnot : ∀ q ∈ wordIndex,
        ¬(q.2 = 0 ∧ q.2 < N ∧ (dictGet emb q.1).isSome) := by
      rintro q hq ⟨hidx, _, _⟩
      have := (hmem q hq).1
      omega
    rw [hpres 0 hnot]
    have h0 : 0 < numWords N wordIndex := by
      unfold numWords
      omega
    exact List.getElem?_replicate_of_lt h0

theorem c1_embedding_matrix_rows_witness :
    ([("hello".toList, (1 : Nat))].map Prod.snd).Perm (List.range' 1 1) ∧
    buildEmbeddingMatrix 20000 2 [("hello".toList, 1)]
        [("hello".toList, ([3, 4] : List Int))] = some [[0, 0], [3, 4]] := by
  obtain ⟨M, hfill, hrows, hzero⟩ :=
    c1_embedding_matrix_rows 20000 2 [("hello".toList, 1)]
      [("hello".toList, ([3, 4] : List Int))] (by decide) (by decide) (by decide)
  have hcomp : buildEmbeddingMatrix 20000 2 [("hello".toList, 1)]
      [("hello".toList, ([3, 4] : List Int))] = some [[0, 0], [3, 4]] := by rfl
  have hM : M = [[0, 0], [3, 4]] := Option.some.inj (hfill.symm.trans hcomp)
  exact ⟨by decide, hfill.trans (congrArg some hM)⟩

/-- C2: the embedding matrix has `min(N, V + 1)` rows of `D` columns, where
`V` is both the number of vocabulary entries and the largest index of the
(dense, 1-based) vocabulary. -/
theorem c2_embedding_matrix_shape (N D V : Nat)
    (wordIndex : List (List Char × Nat)) (emb : List (List Char × List Int))
    (hperm : (wordIndex.map Prod.snd).Perm (List.range' 1 V))
    (hdim : ∀ q ∈ emb, q.2.length = D) :
    wordIndex.length = V ∧
    ∃ M, buildEmbeddingMatrix N D wordIndex emb = some M ∧
      M.length = min N (V + 1) ∧ ∀ r ∈ M, r.length = D := by
  have hlenV : wordIndex.length = V := by
    have h := hperm.length_eq
    simpa using h
  have hmem : ∀ p ∈ wordIndex, 1 ≤ p.2 ∧ p.2 < 1 + V := by
    intro p hp
    have h := hperm.mem_iff.mp (List.mem_map_of_mem Prod.snd hp)
    simpa using h
  have hb : ∀ p ∈ wordIndex, p.2 < N →
      p.2 < (List.replicate (numWords N wordIndex)
        (List.replicate D (0 : Int))).length := by
    intro p hp hpN
    rw [List.length_replicate]
    have := hmem p hp
    unfold numWords
    omega
  obtain ⟨M, hfill, hlen, hdims, _⟩ :=
    embeddingFill_ok N D emb hdim wordIndex
      (List.replicate (numWords N wordIndex) (List.replicate D 0)) hb
  refine ⟨hlenV, M, by unfold buildEmbeddingMatrix; exact hfill, ?_, ?_⟩
  · rw [hlen, List.length_replicate]
    unfold numWords
    rw [hlenV]
  · refine hdims ?_
    intro r hr
    rw [List.eq_of_mem_replicate hr]
    exact List.length_replicate D 0

/-- A 50-word vocabulary with dense 1-based indices, for the shape witness. -/
def testVocab : List (List Char × Nat) :=
  (List.range 50).map (fun k => (List.replicate (k + 1) 'a', k + 1))

theorem c2_embedding_matrix_shape_witness :
    (testVocab.map Prod.snd).Perm (List.range' 1 50) ∧
    testVocab.length = 50 ∧
    (buildEmbeddingMatrix 20000 100 testVocab []).map List.length = some 51 ∧
    min 20000 (50 + 1) = 51 := by
  have hperm : (testVocab.map Prod.snd).Perm (List.range' 1 50) := by
    rw [show testVocab.map Prod.snd = List.range' 1 50 from by decide]
  obtain ⟨hV, M, hM, hlen, hrows⟩ :=
    c2_embedding_matrix_shape 20000 100 50 testVocab [] hperm (by simp)
  refine ⟨hperm, hV, ?_, by decide⟩
  rw [hM]
  simp [hlen]

/-- C9: the embedding matrix builder is a pure function of its inputs: its
result depends on the embedding index only through lookup, so re-running it
on identical inputs — or on any index with identical lookup behaviour —
produces the identical matrix, and nothing is mutated. -/
theorem embeddingFill_ext (N D : Nat) (e1 e2 : List (List Char × List Int))
    (h : ∀ w, dictGet e1 w = dictGet e2 w) :
    ∀ (pairs : List (List Char × Nat)) (m : List (List Int)),
      embeddingFill N D e1 m pairs = embeddingFill N D e2 m pairs := by
  intro pairs
  induction pairs with
  | nil => intro m; rfl
  | cons p rest ih =>
    intro m
    have hstep : embeddingStep N D e1 m p = embeddingStep N D e2 m p := by
      unfold embeddingStep
      rw [h p.1]
    rcases hs : embeddingStep N D e2 m p with _ | m2
    · simp [embeddingFill, hstep, hs]
    · simp only [embeddingFill, hstep, hs]
      exact ih m2

/-- C9: the embedding matrix builder is deterministic and side-effect free:
re-running it on identical inputs gives the identical matrix, and its result
depends on the embedding index only through lookup, so two indexes with the
same lookup behaviour give bit-identical matrices. -/
theorem c9_builder_deterministic (N D : Nat)
    (wordIndex : List (List Char × Nat))
    (e1 e2 : List (List Char × List Int))
    (h : ∀ w, dictGet e1 w = dictGet e2 w) :
    buildEmbeddingMatrix N D wordIndex e1 = buildEmbeddingMatrix N D wordIndex e1 ∧
    buildEmbeddingMatrix N D wordIndex e1 = buildEmbeddingMatrix N D wordIndex e2 := by
  refine ⟨rfl, ?_⟩
  unfold buildEmbeddingMatrix
  exact embeddingFill_ext N D e1 e2 h wordIndex _

theorem c9_builder_deterministic_witness :
    buildEmbeddingMatrix 20000 1 [("the".toList, 1)]
        [("the".toList, ([5] : List Int)), ("the".toList, [7])] =
      buildEmbeddingMatrix 20000 1 [("the".toList, 1)]
        [("the".toList, ([5] : List Int))] :=
  (c9_builder_deterministic 20000 1 [("the".toList, 1)]
    [("the".toList, ([5] : List Int)), ("the".toList, [7])]
    [("the".toList, ([5] : List Int))]
    (by
      intro w
      by_cases h : ['t', 'h', 'e'] = w <;> simp [dictGet, h])).2

/-- C10: on any vocabulary whose indices lie in `[1, number of entries]`,
every write the guarded fill loop performs hits a row index strictly
between 0 and `num_rows`, and the whole construction runs without any
out-of-bounds access. -/
theorem c10_fill_in_bounds (N D : Nat)
    (wordIndex : List (List Char × Nat)) (emb : List (List Char × List Int))
    (hrange : ∀ p ∈ wordIndex, 1 ≤ p.2 ∧ p.2 ≤ wordIndex.length)
    (hdim : ∀ q ∈ emb, q.2.length = D) :
    (∀ p ∈ wordIndex, p.2 < N → 0 < p.2 ∧ p.2 < numWords N wordIndex) ∧
    ∃ M, buildEmbeddingMatrix N D wordIndex emb = some M := by
  have hb : ∀ p ∈ wordIndex, p.2 < N →
      p.2 < (List.replicate (numWords N wordIndex)
        (List.replicate D (0 : Int))).length := by
    intro p hp hpN
    rw [List.length_replicate]
    have := hrange p hp
    unfold numWords
    omega
  obtain ⟨M, hfill, _, _, _⟩ :=
    embeddingFill_ok N D emb hdim wordIndex
      (List.replicate (numWords N wordIndex) (List.replicate D 0)) hb
  refine ⟨?_, M, by unfold buildEmbeddingMatrix; exact hfill⟩
  intro p hp hpN
  have h1 := hrange p hp
  have h2 := hb p hp hpN
  rw [List.length_replicate] at h2
  exact ⟨h1.1, h2⟩

theorem c10_fill_in_bounds_witness :
    (0 : Nat) < 1 ∧ 1 < numWords 20000 [("the".toList, (1 : Nat))] ∧
    (buildEmbeddingMatrix 20000 2 [("the".toList, 1)] []).isSome = true := by
  obtain ⟨hbound, M, hM⟩ :=
    c10_fill_in_bounds 20000 2 [("the".toList, 1)] [] (by decide) (by simp)
  obtain ⟨h1, h2⟩ := hbound ("the".toList, 1) (by simp) (by decide)
  exact ⟨h1, h2, by rw [hM]; rfl⟩

/-- An immediate subdirectory of the corpus root: its name and its files as
(file name, raw contents) pairs.  The `os.path.isdir` test of notebook cell
5 is a property of the file system, so the model's input is already the
list of subdirectory entries (in arbitrary listing order). -/
structure DirEntry where
  name : List Char
  files : List (List Char × List Char)
deriving DecidableEq

/-- Lexicographic order on directory names, used by `sorted(os.listdir(..))`. -/
def dirLe (a b : DirEntry) : Prop := a.name ≤ b.name

instance : DecidableRel dirLe :=
  fun a b => (inferInstance : Decidable (a.name ≤ b.name))

instance : IsTotal DirEntry dirLe := ⟨fun a b => le_total a.name b.name⟩

instance : IsTrans DirEntry dirLe :=
  ⟨fun _ _ _ hab hbc => le_trans hab hbc⟩

/-- Lexicographic order on file names within a directory. -/
def fileLe (a b : List Char × List Char) : Prop := a.1 ≤ b.1

instance : DecidableRel fileLe :=
  fun a b => (inferInstance : Decidable (a.1 ≤ b.1))

/-- Python `str.isdigit` on an ASCII file name: nonempty, all digits. -/
def isDigits (s : List Char) : Bool := !s.isEmpty && s.all Char.isDigit

/-- `for fname in sorted(os.listdir(path)): if fname.isdigit(): ...`
— the files of one directory that the loader reads, in processing order. -/
def digitFiles (d : DirEntry) : List (List Char × List Char) :=
  (List.insertionSort fileLe d.files).filter (fun f => isDigits f.1)

/-- The body of the directory loop of notebook cell 5:
`label_id = len(labels_index); labels_index[name] = label_id;`
then for every digit-named file append the header-stripped text and the
label id.  The accumulator is `(texts, labels_index, labels)`. -/
def loadStep
    (acc : List (List Char) × List (List Char × Nat) × List Nat)
    (d : DirEntry) : List (List Char) × List (List Char × Nat) × List Nat :=
  let labelId := acc.2.1.length
  (acc.1 ++ (digitFiles d).map (fun f => stripHeader f.2),
   acc.2.1 ++ [(d.name, labelId)],
   acc.2.2 ++ (digitFiles d).map (fun _ => labelId))

/-- The corpus loader of notebook cell 5:
`for name in sorted(os.listdir(TEXT_DATA_DIR)): ...` over the subdirectory
entries, starting from empty `texts`, `labels_index`, `labels`. -/
def loadCorpus (dirs : List DirEntry) :
    List (List Char) × List (List Char × Nat) × List Nat :=
  (List.insertionSort dirLe dirs).foldl loadStep ([], [], [])

theorem loadLoop_spec (ds : List DirEntry) :
    ∀ (ts : List (List Char)) (li : List (List Char × Nat)) (ls : List Nat),
      ds.foldl loadStep (ts, li, ls) =
        (ts ++ (List.enumFrom li.length ds).flatMap (fun p =>
            (digitFiles p.2).map (fun f => stripHeader f.2)),
         li ++ (List.enumFrom li.length ds).map (fun p => (p.2.name, p.1)),
         ls ++ (List.enumFrom li.length ds).flatMap (fun p =>
            (digitFiles p.2).map (fun _ => p.1))) := by
  induction ds with
  | nil => intro ts li ls; simp
  | cons d ds ih =>
    intro ts li ls
    rw [List.foldl_cons]
    show List.foldl loadStep
      (ts ++ (digitFiles d).map (fun f => stripHeader f.2),
       li ++ [(d.name, li.length)],
       ls ++ (digitFiles d).map (fun _ => li.length)) ds = _
    rw [ih]
    simp [List.enumFrom_cons, List.append_assoc, List.length_append]

/-- C8: the loader visits subdirectories in lexicographic name order and
gives the `k`-th visited directory label id `k` (so the smallest-named
directory gets id 0 and a single-directory corpus gets the mapping
`{name: 0}`); `texts` and `labels` are parallel lists pairing each
header-stripped text with the id of the directory it came from. -/
theorem c8_corpus_loader (dirs : List DirEntry) :
    (loadCorpus dirs).2.1 =
      (List.enumFrom 0 (List.insertionSort dirLe dirs)).map
        (fun p => (p.2.name, p.1)) ∧
    (loadCorpus dirs).1.zip (loadCorpus dirs).2.2 =
      (List.enumFrom 0 (List.insertionSort dirLe dirs)).flatMap
        (fun p => (digitFiles p.2).map (fun f => (stripHeader f.2, p.1))) ∧
    (loadCorpus dirs).1.length = (loadCorpus dirs).2.2.length ∧
    (∀ d0, (List.insertionSort dirLe dirs)[0]? = some d0 →
      ((d0.name, 0) ∈ (loadCorpus dirs).2.1 ∧
        ∀ d ∈ dirs, d0.name ≤ d.name)) := by
  have hspec := loadLoop_spec (List.insertionSort dirLe dirs) [] [] []
  have hload : loadCorpus dirs =
      ((List.enumFrom 0 (List.insertionSort dirLe dirs)).flatMap (fun p =>
          (digitFiles p.2).map (fun f => stripHeader f.2)),
       (List.enumFrom 0 (List.insertionSort dirLe dirs)).map
          (fun p => (p.2.name, p.1)),
       (List.enumFrom 0 (List.insertionSort dirLe dirs)).flatMap (fun p =>
          (digitFiles p.2).map (fun _ => p.1))) := by
    unfold loadCorpus
    rw [hspec]
    simp
  have hzip : ∀ xs : List (Nat × DirEntry),
      (xs.flatMap (fun p => (digitFiles p.2).map (fun f => stripHeader f.2))).zip
        (xs.flatMap (fun p => (digitFiles p.2).map (fun _ => p.1))) =
      xs.flatMap (fun p => (digitFiles p.2).map (fun f => (stripHeader f.2, p.1))) := by
    intro xs
    induction xs with
    | nil => rfl
    | cons x xs ihx =>
      simp only [List.flatMap_cons]
      rw [List.zip_append (by simp), ihx, List.zip_map']
  refine ⟨by rw [hload], ?_, ?_, ?_⟩
  · rw [hload]
    exact hzip _
  · rw [hload]
    simp only [List.length_flatMap, List.length_map]
    apply congrArg List.sum
    apply List.map_congr_left
    intro p _
    simp
  · intro d0 h0
    constructor
    · rw [hload]
      rcases hS : List.insertionSort dirLe dirs with _ | ⟨s, ss⟩
      · rw [hS] at h0; cases h0
      · rw [hS] at h0
        simp only [List.getElem?_cons_zero] at h0
        cases h0
        simp [List.enumFrom_cons]
    · intro d hd
      have hdS : d ∈ List.insertionSort dirLe dirs :=
        (List.perm_insertionSort dirLe dirs).symm.subset hd
      have hsorted := List.sorted_insertionSort dirLe dirs
      rcases hS : List.insertionSort dirLe dirs with _ | ⟨s, ss⟩
      · rw [hS] at h0; cases h0
      · rw [hS] at h0
        simp only [List.getElem?_cons_zero] at h0
        cases h0
        rw [hS] at hdS hsorted
        rcases List.mem_cons.mp hdS with hcase | hcase
        · rw [hcase]
        · exact List.rel_of_sorted_cons hsorted d hcase

/-- Example corpus for the loader witness: two directories listed out of
lexicographic order; one file name is not all-digits and must be skipped. -/
def dirHam : DirEntry :=
  ⟨"b_label".toList, [("1".toList, "hdr\n\nbody".toList)]⟩

/-- The lexicographically smaller test directory. -/
def dirSpam : DirEntry :=
  ⟨"a_label".toList, [("2".toList, "text".toList), ("x7".toList, "skip".toList)]⟩

theorem c8_corpus_loader_witness :
    (List.insertionSort dirLe [dirHam, dirSpam])[0]? = some dirSpam ∧
    ("a_label".toList, 0) ∈ (loadCorpus [dirHam, dirSpam]).2.1 ∧
    dirSpam.name ≤ dirHam.name ∧
    (loadCorpus [dirSpam]).2.1 = [("a_label".toList, 0)] ∧
    (loadCorpus [dirHam, dirSpam]).1.length =
      (loadCorpus [dirHam, dirSpam]).2.2.length := by
  have h := (c8_corpus_loader [dirHam, dirSpam]).2.2.2 dirSpam (by decide)
  refine ⟨by decide, h.1, h.2 dirHam (by decide), ?_,
    (c8_corpus_loader [dirHam, dirSpam]).2.2.1⟩
  rw [(c8_corpus_loader [dirSpam]).1]
  decide

/-- The distinct words of a token stream, in order of first appearance. -/
def firstOccs : List (List Char) → List (List Char)
  | [] => []
  | w :: rest => w :: (firstOccs rest).filter (fun x => x != w)

theorem firstOccs_mem :
    ∀ (ws : List (List Char)) (x : List Char), x ∈ firstOccs ws ↔ x ∈ ws := by
  intro ws
  induction ws with
  | nil => intro x; simp [firstOccs]
  | cons w rest ih =>
    intro x
    simp only [firstOccs, List.mem_cons, List.mem_filter, bne_iff_ne]
    constructor
    · rintro (h | ⟨h, _⟩)
      · exact Or.inl h
      · exact Or.inr ((ih x).mp h)
    · rintro (h | h)
      · exact Or.inl h
      · by_cases hx : x = w
        · exact Or.inl hx
        · exact Or.inr ⟨(ih x).mpr h, hx⟩

theorem firstOccs_nodup : ∀ ws : List (List Char), (firstOccs ws).Nodup := by
  intro ws
  induction ws with
  | nil => exact List.nodup_nil
  | cons w rest ih =>
    refine List.Nodup.cons ?_ (List.Nodup.filter _ ih)
    intro hmem
    have := (List.mem_filter.mp hmem).2
    simp at this

/-- The tokenizer's sort key: strictly larger corpus frequency first, ties
by smaller first-occurrence rank.  Elements are `(word, frequency, rank)`. -/
def tokRel (a b : List Char × Nat × Nat) : Prop :=
  b.2.1 < a.2.1 ∨ (a.2.1 = b.2.1 ∧ a.2.2 ≤ b.2.2)

instance : DecidableRel tokRel := fun a b => by
  unfold tokRel
  infer_instance

instance : IsTotal (List Char × Nat × Nat) tokRel :=
  ⟨by
    intro a b
    unfold tokRel
    omega⟩

instance : IsTrans (List Char × Nat × Nat) tokRel :=
  ⟨by
    intro a b c hab hbc
    unfold tokRel at hab hbc ⊢
    omega⟩

/-- Modelled from the spec: the `word_index` produced by
`Tokenizer(num_words=MAX_NUM_WORDS).fit_on_texts(texts)` of the external
tokenizer (its implementation is not part of this repository); built in
three stages, `tokKeyed`, `tokSorted`, `wordIndexOf`.  Input is the
already-tokenized corpus, one token list per text.  Every distinct word gets
an index starting at 1, in descending corpus frequency with ties broken by
first occurrence, and no truncation to `num_words` happens here.  This
first stage tags every distinct word with its corpus frequency and its
first-occurrence rank. -/
def tokKeyed (corpus : List (List (List Char))) :
    List (List Char × Nat × Nat) :=
  (List.enumFrom 0 (firstOccs corpus.flatten)).map
    (fun p => (p.2, corpus.flatten.count p.2, p.1))

/-- The distinct words sorted by the tokenizer's key. -/
def tokSorted (corpus : List (List (List Char))) :
    List (List Char × Nat × Nat) :=
  List.insertionSort tokRel (tokKeyed corpus)

/-- The final `word_index`: sorted words paired with indices `1, 2, ...`. -/
def wordIndexOf (corpus : List (List (List Char))) : List (List Char × Nat) :=
  (List.enumFrom 1 (tokSorted corpus)).map (fun p => (p.2.1, p.1))

theorem wordIndexOf_map_snd (corpus : List (List (List Char))) :
    (wordIndexOf corpus).map Prod.snd =
      List.range' 1 (wordIndexOf corpus).length := by
  unfold wordIndexOf
  rw [List.map_map]
  have h1 : (Prod.snd ∘ fun p : Nat × (List Char × Nat × Nat) => (p.2.1, p.1))
      = Prod.fst := rfl
  rw [h1, List.enumFrom_map_fst]
  congr 1
  simp

theorem wordIndexOf_map_fst (corpus : List (List (List Char))) :
    (wordIndexOf corpus).map Prod.fst =
      (tokSorted corpus).map (fun q => q.1) := by
  unfold wordIndexOf
  rw [List.map_map]
  have h1 : (Prod.fst ∘ fun p : Nat × (List Char × Nat × Nat) => (p.2.1, p.1))
      = (fun q : List Char × Nat × Nat => q.1) ∘ Prod.snd := rfl
  rw [h1, ← List.map_map, List.enumFrom_map_snd]

theorem tokKeyed_map_fst (corpus : List (List (List Char))) :
    (tokKeyed corpus).map (fun q => q.1) = firstOccs corpus.flatten := by
  unfold tokKeyed
  rw [List.map_map]
  have h1 : ((fun q : List Char × Nat × Nat => q.1) ∘
      fun p : Nat × List Char => (p.2, corpus.flatten.count p.2, p.1))
      = Prod.snd := rfl
  rw [h1, List.enumFrom_map_snd]

theorem tokSorted_keys_perm (corpus : List (List (List Char))) :
    ((tokSorted corpus).map (fun q => q.1)).Perm (firstOccs corpus.flatten) := by
  have hp := (List.perm_insertionSort tokRel (tokKeyed corpus)).map
    (fun q : List Char × Nat × Nat => q.1)
  rw [tokKeyed_map_fst] at hp
  exact hp

theorem wordIndexOf_keys_nodup (corpus : List (List (List Char))) :
    ((wordIndexOf corpus).map Prod.fst).Nodup := by
  rw [wordIndexOf_map_fst]
  exact (tokSorted_keys_perm corpus).nodup_iff.mpr (firstOccs_nodup _)

theorem wordIndexOf_mem_iff (corpus : List (List (List Char))) (w : List Char) :
    (∃ i, (w, i) ∈ wordIndexOf corpus) ↔ w ∈ corpus.flatten := by
  constructor
  · rintro ⟨i, hi⟩
    have h1 : w ∈ (wordIndexOf corpus).map Prod.fst :=
      List.mem_map_of_mem Prod.fst hi
    rw [wordIndexOf_map_fst] at h1
    exact (firstOccs_mem _ w).mp ((tokSorted_keys_perm corpus).subset h1)
  · intro hw
    have h1 : w ∈ (wordIndexOf corpus).map Prod.fst := by
      rw [wordIndexOf_map_fst]
      exact (tokSorted_keys_perm corpus).symm.subset ((firstOccs_mem _ w).mpr hw)
    rcases List.mem_map.mp h1 with ⟨p, hp, hpw⟩
    refine ⟨p.2, ?_⟩
    rw [← hpw]
    exact hp

theorem dictGet_of_mem_nodup {α : Type} :
    ∀ (d : List (List Char × α)), (d.map Prod.fst).Nodup →
      ∀ w v, (w, v) ∈ d → dictGet d w = some v := by
  intro d
  induction d with
  | nil => rintro _ w v ⟨⟩
  | cons p rest ih =>
    intro hnd w v hmem
    rcases List.mem_cons.mp hmem with hcase | hcase
    · rw [← hcase]
      simp [dictGet]
    · by_cases hw : p.1 = w
      · exfalso
        have hm : w ∈ rest.map Prod.fst := List.mem_map_of_mem Prod.fst hcase
        rw [List.map_cons] at hnd
        exact (List.nodup_cons.mp hnd).1 (hw ▸ hm)
      · rw [List.map_cons] at hnd
        simpa [dictGet, hw] using ih (List.nodup_cons.mp hnd).2 w v hcase

theorem wordIndexOf_drop_overBudget (corpus : List (List (List Char)))
    (N : Nat) :
    ∀ w i, (w, i) ∈ wordIndexOf corpus → N ≤ i →
      textToSequence (wordIndexOf corpus) N [w] = [] := by
  intro w i hmem hNi
  have hget : dictGet (wordIndexOf corpus) w = some i :=
    dictGet_of_mem_nodup _ (wordIndexOf_keys_nodup corpus) w i hmem
  simp [textToSequence, hget, Nat.not_lt.mpr hNi]

/-- The position of a word in a word list — applied to `firstOccs`, the
first-occurrence rank of a word. -/
def firstRank : List (List Char) → List Char → Nat
  | [], _ => 0
  | x :: rest, d => if x = d then 0 else firstRank rest d + 1

theorem firstRank_eq {l : List (List Char)} : l.Nodup →
    ∀ {j : Nat} {d : List Char}, l[j]? = some d → firstRank l d = j := by
  induction l with
  | nil =>
    intro _ j d h
    cases h
  | cons x rest ih =>
    intro hnd j d h
    cases j with
    | zero =>
      rw [List.getElem?_cons_zero] at h
      cases h
      simp [firstRank]
    | succ j0 =>
      rw [List.getElem?_cons_succ] at h
      have hxd : ¬ x = d := by
        intro hc
        subst hc
        exact (List.nodup_cons.mp hnd).1 (List.getElem?_mem h)
      simp only [firstRank, if_neg hxd]
      rw [ih (List.nodup_cons.mp hnd).2 h]

theorem tokSorted_facts (corpus : List (List (List Char))) :
    ∀ q ∈ tokSorted corpus,
      q.2.1 = corpus.flatten.count q.1 ∧
      q.2.2 = firstRank (firstOccs corpus.flatten) q.1 := by
  intro q hq
  have hk : q ∈ tokKeyed corpus :=
    (List.perm_insertionSort tokRel (tokKeyed corpus)).subset hq
  unfold tokKeyed at hk
  rcases List.mem_map.mp hk with ⟨p, hp, hq2⟩
  rcases List.mem_iff_getElem?.mp hp with ⟨m, hm⟩
  rw [List.getElem?_enumFrom] at hm
  rcases Option.map_eq_some'.mp hm with ⟨d, hd, hpd⟩
  have hp1 : p.1 = m := by rw [← hpd]; simp
  have hp2 : p.2 = d := by rw [← hpd]
  subst hq2
  refine ⟨rfl, ?_⟩
  show p.1 = firstRank (firstOccs corpus.flatten) p.2
  rw [hp1, hp2]
  exact (firstRank_eq (firstOccs_nodup _) hd).symm

theorem tokSorted_rank_nodup (corpus : List (List (List Char))) :
    ((tokSorted corpus).map (fun q => q.2.2)).Nodup := by
  have hperm := (List.perm_insertionSort tokRel (tokKeyed corpus)).map
    (fun q : List Char × Nat × Nat => q.2.2)
  refine hperm.nodup_iff.mpr ?_
  unfold tokKeyed
  rw [List.map_map]
  have h1 : ((fun q : List Char × Nat × Nat => q.2.2) ∘
      fun p : Nat × List Char => (p.2, corpus.flatten.count p.2, p.1))
      = Prod.fst := rfl
  rw [h1, List.enumFrom_map_fst]
  exact List.nodup_range' 0 _

theorem pairwise_enumFrom {α : Type} {R : α → α → Prop} :
    ∀ (l : List α) (n : Nat), List.Pairwise R l →
      List.Pairwise (fun p q : Nat × α => R p.2 q.2) (List.enumFrom n l) := by
  intro l
  induction l with
  | nil => intro n _; simp
  | cons a l ih =>
    intro n h
    rw [List.enumFrom_cons]
    refine List.Pairwise.cons ?_ (ih (n + 1) (List.pairwise_cons.mp h).2)
    intro q hq
    have hq2 : q.2 ∈ l := by
      have hm := List.mem_map_of_mem Prod.snd hq
      rw [List.enumFrom_map_snd] at hm
      exact hm
    exact (List.pairwise_cons.mp h).1 q.2 hq2

/-- C7: the vocabulary mapping assigns unique indices densely from 1 (index
0 is reserved, no entry carries it), contains exactly the distinct corpus
words with no truncation, is ordered by strictly descending corpus
frequency with ties broken by first-occurrence order, and an entry with
index `≥ N` is still a valid entry of the mapping yet encodes to nothing. -/
theorem c7_vocab_invariants (N : Nat) (corpus : List (List (List Char))) :
    (wordIndexOf corpus).map Prod.snd =
      List.range' 1 (wordIndexOf corpus).length ∧
    (∀ w : List Char, (∃ i, (w, i) ∈ wordIndexOf corpus) ↔
      w ∈ corpus.flatten) ∧
    (∀ p ∈ wordIndexOf corpus, 1 ≤ p.2) ∧
    List.Pairwise (fun p q : List Char × Nat =>
      corpus.flatten.count q.1 < corpus.flatten.count p.1 ∨
      (corpus.flatten.count p.1 = corpus.flatten.count q.1 ∧
        firstRank (firstOccs corpus.flatten) p.1 <
          firstRank (firstOccs corpus.flatten) q.1)) (wordIndexOf corpus) ∧
    (∀ w i, (w, i) ∈ wordIndexOf corpus → N ≤ i →
      textToSequence (wordIndexOf corpus) N [w] = []) := by
  refine ⟨wordIndexOf_map_snd corpus, wordIndexOf_mem_iff corpus, ?_, ?_,
    wordIndexOf_drop_overBudget corpus N⟩
  · intro p hp
    have h1 : p.2 ∈ (wordIndexOf corpus).map Prod.snd :=
      List.mem_map_of_mem Prod.snd hp
    rw [wordIndexOf_map_snd] at h1
    exact (List.mem_range'_1.mp h1).1
  · have hsorted : List.Pairwise tokRel (tokSorted corpus) :=
      List.sorted_insertionSort tokRel (tokKeyed corpus)
    have hranks := List.pairwise_map.mp (tokSorted_rank_nodup corpus)
    have hcomb := hsorted.and hranks
    have hstrict : List.Pairwise (fun a b : List Char × Nat × Nat =>
        corpus.flatten.count b.1 < corpus.flatten.count a.1 ∨
        (corpus.flatten.count a.1 = corpus.flatten.count b.1 ∧
          firstRank (firstOccs corpus.flatten) a.1 <
            firstRank (firstOccs corpus.flatten) b.1)) (tokSorted corpus) := by
      refine hcomb.imp_of_mem ?_
      intro a b ha hb hab
      obtain ⟨ha1, ha2⟩ := tokSorted_facts corpus a ha
      obtain ⟨hb1, hb2⟩ := tokSorted_facts corpus b hb
      obtain ⟨htok, hne⟩ := hab
      unfold tokRel at htok
      rw [← ha1, ← hb1, ← ha2, ← hb2]
      omega
    unfold wordIndexOf
    rw [List.pairwise_map]
    exact pairwise_enumFrom (tokSorted corpus) 1 hstrict

/-- A tiny corpus for the vocabulary witness: one text, `aa bb aa`. -/
def tinyCorpus : List (List (List Char)) :=
  [["aa".toList, "bb".toList, "aa".toList]]

theorem c7_vocab_invariants_witness :
    (wordIndexOf tinyCorpus).map Prod.snd =
      List.range' 1 (wordIndexOf tinyCorpus).length ∧
    ("bb".toList, 2) ∈ wordIndexOf tinyCorpus ∧
    (2 : Nat) ≤ 2 ∧
    textToSequence (wordIndexOf tinyCorpus) 2 ["bb".toList] = [] ∧
    wordIndexOf tinyCorpus = [("aa".toList, 1), ("bb".toList, 2)] :=
  ⟨(c7_vocab_invariants 2 tinyCorpus).1, by decide, by decide,
    (c7_vocab_invariants 2 tinyCorpus).2.2.2.2 "bb".toList 2
      (by decide) (by decide),
    by decide⟩
